import Mathlib

/-!
Verification development for the QuickMark LAN note-sharing subsystem.

The UI layer (App.tsx and components) is embedded directly from the
TypeScript source.  The networking core (beacon codec, transfer session,
merge engine, session coordinator) is not part of the available sources;
those components are modelled from the specification, as noted on each
definition.
-/

set_option maxRecDepth 4000

/-! ## UI layer: note summaries (App.tsx) -/

/-- Summary record of a note, as held in the UI list; `updatedAt` is the
numeric time of the ISO timestamp (the value compared by the sort). -/
structure NoteSummary where
  id : String
  title : String
  updatedAt : Nat
deriving DecidableEq, Repr

/-- Embeds `updateSummaries` of App.tsx: drop every summary with the saved
note's id, then append the fresh summary at the end. -/
def updateSummaries (notes : List NoteSummary) (summary : NoteSummary) : List NoteSummary :=
  notes.filter (fun n => n.id != summary.id) ++ [summary]

/-- Embeds `sortByUpdated` of App.tsx: sort summaries by `updatedAt`
descending (the comparator returns `b.updatedAt - a.updatedAt`). -/
def sortByUpdated (notes : List NoteSummary) : List NoteSummary :=
  notes.mergeSort (fun a b => decide (b.updatedAt ≤ a.updatedAt))

/-! ## UI layer: send-status percentage (App.tsx, share send_status listener) -/

/-- Embeds the percentage computation of the send_status listener:
`p.total ? Math.min(100, Math.floor((p.sent * 100) / p.total)) : 0`.
`Int.fdiv` is floor division, matching `Math.floor` of the real quotient. -/
def sendingPct (sent total : Int) : Int :=
  if total = 0 then 0 else min 100 ((sent * 100).fdiv total)

/-! ## UI layer: peer discovery refresh (App.tsx, refreshPeers) -/

/-- Peer record as surfaced to the UI (ShareDialog.tsx `PeerInfo`). -/
structure PeerInfo where
  name : String
  ip : String
  port : Nat
  id : String
deriving DecidableEq, Repr

/-- UI state touched by `refreshPeers`: the peer list and the busy flag. -/
structure ShareUIState where
  peers : List PeerInfo
  shareBusy : Bool
deriving DecidableEq, Repr

/-- Outcome of the `discover_receivers` invocation: a fulfilled promise
carrying a possibly-null list, or a rejection. -/
inductive DiscoverResult
  | ok (found : Option (List PeerInfo))
  | err
deriving DecidableEq, Repr

/-- Embeds the final state of `refreshPeers` in App.tsx: on success
`setPeers(found || [])`, on failure `setPeers([])`, and in both cases the
`finally` block runs `setShareBusy(false)`. -/
def refreshPeersFinal (st : ShareUIState) (res : DiscoverResult) : ShareUIState :=
  match res with
  | .ok found => { st with peers := found.getD [], shareBusy := false }
  | .err => { st with peers := [], shareBusy := false }

/-! ## UI layer: incoming-transfer decision (App.tsx, acceptIncoming / rejectIncoming) -/

/-- Shape of the `invoke("accept_incoming_transfer", ...)` call. -/
structure DecisionCall where
  cmd : String
  id : String
  accept : Bool
deriving DecidableEq, Repr

/-- Embeds `acceptIncoming` of App.tsx: invoke the decision with the
offer's id and `accept: true`. -/
def acceptIncoming (id : String) : DecisionCall :=
  { cmd := "accept_incoming_transfer", id := id, accept := true }

/-- Embeds `rejectIncoming` of App.tsx: invoke the decision with the
offer's id and `accept: false`. -/
def rejectIncoming (id : String) : DecisionCall :=
  { cmd := "accept_incoming_transfer", id := id, accept := false }

/-! ## Merge Engine (spec §4.5) -/

/-- Note as held in the local note index (storage collaborator). -/
structure LocalNote where
  noteId : String
  title : String
  body : String
  updatedAt : Nat
deriving DecidableEq, Repr

/-- Staged entry received over the wire, keyed by `noteId`. -/
structure StagedEntry where
  noteId : String
  title : String
  body : String
  updatedAt : Nat
deriving DecidableEq, Repr

/-- View of a staged entry as the local note it would persist to. -/
def StagedEntry.toNote (e : StagedEntry) : LocalNote :=
  { noteId := e.noteId, title := e.title, body := e.body, updatedAt := e.updatedAt }

/-- Lookup of a note in the local index by id (first match). -/
def findNote : List LocalNote → String → Option LocalNote
  | [], _ => none
  | n :: rest, id => if n.noteId = id then some n else findNote rest id

/-- Per-entry outcome vocabulary of the merge result. -/
inductive MergeAction
  | added
  | updated
  | skipped
deriving DecidableEq, Repr

/-- Replacement of the local note carrying the staged entry's id by the
staged title/body/timestamp. -/
def overwriteNote (idx : List LocalNote) (e : StagedEntry) : List LocalNote :=
  idx.map fun n => if n.noteId = e.noteId then e.toNote else n

/-- Modelled from the spec: the Merge Engine's per-entry rule (§4.5, code
not in the sources).  Unknown `noteId` is inserted; a strictly newer
staged `updatedAt` overwrites title/body/timestamp (last-writer-wins);
otherwise the staged version is discarded and the local note kept.
Storage failures are outside this model. -/
def mergeEntry (idx : List LocalNote) (e : StagedEntry) : List LocalNote × MergeAction :=
  match findNote idx e.noteId with
  | none => (idx ++ [e.toNote], .added)
  | some loc =>
    if loc.updatedAt < e.updatedAt then
      (overwriteNote idx e, .updated)
    else
      (idx, .skipped)

/-- Modelled from the spec: batch application of the Merge Engine over the
staged entries in order (§4.5, code not in the sources). -/
def mergeApply : List LocalNote → List StagedEntry → List LocalNote × List MergeAction
  | idx, [] => (idx, [])
  | idx, e :: es =>
    let r := mergeEntry idx e
    let rest := mergeApply r.1 es
    (rest.1, r.2 :: rest.2)

/-! ## Session Coordinator (spec §4.6) -/

/-- Life-cycle state of one transfer session slot. -/
inductive SessState
  | inProgress
  | completed
  | failed
  | rejected
deriving DecidableEq, Repr

/-- Modelled from the spec: the coordinator owns one optional outbound and
one optional inbound session handle (§4.6, code not in the sources). -/
structure Coordinator where
  outbound : Option SessState
  inbound : Option SessState
deriving DecidableEq, Repr

/-- Error vocabulary of the coordination layer that the claims touch. -/
inductive ShareError
  | sessionBusy
deriving DecidableEq, Repr

/-- A slot is busy exactly when it holds an `InProgress` session. -/
def slotBusy : Option SessState → Bool
  | some .inProgress => true
  | _ => false

/-- Modelled from the spec: starting a new outbound send fails with
`SessionBusy` while an outbound session is `InProgress`, otherwise a fresh
`InProgress` session takes the slot (§4.6, code not in the sources). -/
def startSend (c : Coordinator) : Coordinator × Option ShareError :=
  if slotBusy c.outbound then (c, some .sessionBusy)
  else ({ c with outbound := some .inProgress }, none)

/-- Modelled from the spec: starting a new inbound receive, same busy rule
on the inbound slot (§4.6, code not in the sources). -/
def startReceive (c : Coordinator) : Coordinator × Option ShareError :=
  if slotBusy c.inbound then (c, some .sessionBusy)
  else ({ c with inbound := some .inProgress }, none)

/-! ## Transfer Session progress (spec §4.4, §3 invariants) -/

/-- Progress counters of one transfer session as observed by the
notification sink. -/
structure SendProgress where
  bytesTransferred : Nat
  totalBytes : Nat
deriving DecidableEq, Repr

/-- Modelled from the spec: streaming one chunk adds its size to
`bytesTransferred` (§4.4, code not in the sources). -/
def stepChunk (p : SendProgress) (n : Nat) : SendProgress :=
  { p with bytesTransferred := p.bytesTransferred + n }

/-- Progress values the notification sink observes, one after each chunk. -/
def observeChunks : SendProgress → List Nat → List Nat
  | _, [] => []
  | p, n :: rest => (stepChunk p n).bytesTransferred :: observeChunks (stepChunk p n) rest

/-- Session state after streaming every chunk; a `Completed` outcome is
emitted from this state. -/
def runStream (p : SendProgress) (chunks : List Nat) : SendProgress :=
  chunks.foldl stepChunk p

/-! ## Receiver Transfer Session (spec §4.4 receiver path) -/

/-- The sender's offer as surfaced to the receiver. -/
structure TransferOffer where
  offerId : String
  senderName : String
  kind : String
  totalBytes : Nat
deriving DecidableEq, Repr

/-- Receiver session states (spec §4.4). -/
inductive RecvState
  | idle
  | offerReceived (offer : TransferOffer)
  | streaming (offer : TransferOffer) (bytes : Nat)
  | completed
  | rejected
  | failed
deriving DecidableEq, Repr

/-- Inputs the receiver session reacts to: inbound frames and the external
caller's decision. -/
inductive RecvEvent
  | frameOffer (o : TransferOffer)
  | externalDecide (offerId : String) (accept : Bool)
  | frameChunk (n : Nat)
  | frameComplete
deriving DecidableEq, Repr

/-- Outputs of the receiver session: notifications raised and frames sent
back to the sender. -/
inductive RecvOutput
  | surfaceOffer (offerId senderName kind : String) (totalBytes : Nat)
  | sendDecision (offerId : String) (accept : Bool)
  | recvDone (ok : Bool)
deriving DecidableEq, Repr

/-- Modelled from the spec: one transition of the receiver session state
machine (§4.4 receiver path, code not in the sources).  An `Offer` frame
surfaces the offer externally without auto-accepting; the `Decision` frame
goes out only in reaction to the external caller's decision by `offerId`;
unexpected frames fail the session; terminal states absorb. -/
def recvStep : RecvState → RecvEvent → RecvState × List RecvOutput
  | .idle, .frameOffer o =>
      (.offerReceived o, [.surfaceOffer o.offerId o.senderName o.kind o.totalBytes])
  | .idle, .externalDecide _ _ => (.idle, [])
  | .idle, _ => (.failed, [.recvDone false])
  | .offerReceived o, .externalDecide id acc =>
      if id = o.offerId then
        if acc then (.streaming o 0, [.sendDecision id true])
        else (.rejected, [.sendDecision id false])
      else (.offerReceived o, [])
  | .offerReceived _, _ => (.failed, [.recvDone false])
  | .streaming o b, .frameChunk n => (.streaming o (b + n), [])
  | .streaming _ _, .frameComplete => (.completed, [.recvDone true])
  | .streaming o b, .externalDecide _ _ => (.streaming o b, [])
  | .streaming _ _, .frameOffer _ => (.failed, [.recvDone false])
  | .completed, _ => (.completed, [])
  | .rejected, _ => (.rejected, [])
  | .failed, _ => (.failed, [])

/-- Run of the receiver session over a sequence of events, collecting all
outputs in order. -/
def recvRun : RecvState → List RecvEvent → RecvState × List RecvOutput
  | s, [] => (s, [])
  | s, ev :: evs =>
    let r := recvStep s ev
    let rest := recvRun r.1 evs
    (rest.1, r.2 ++ rest.2)

/-! ## Beacon Codec (spec §4.1) -/

/-- Modelled from the spec: the fixed magic marker opening every discovery
datagram (§4.1; the concrete byte values are not in the sources). -/
def BEACON_MAGIC : List Nat := [81, 77, 82, 75]

/-- Modelled from the spec: the single supported protocol version. -/
def PROTO_VERSION : Nat := 1

/-- Discovery beacon value; the two names are carried as byte sequences. -/
structure DiscoveryBeacon where
  protocolVersion : Nat
  serviceName : List Nat
  displayName : List Nat
  listenPort : Nat
deriving DecidableEq, Repr

/-- Well-formed beacon: supported version, one-byte name lengths, byte-size
name elements, and a uint16 port. -/
def validBeacon (b : DiscoveryBeacon) : Prop :=
  b.protocolVersion = PROTO_VERSION ∧
  b.serviceName.length < 256 ∧ (∀ x ∈ b.serviceName, x < 256) ∧
  b.displayName.length < 256 ∧ (∀ x ∈ b.displayName, x < 256) ∧
  b.listenPort < 65536

instance (b : DiscoveryBeacon) : Decidable (validBeacon b) := by
  unfold validBeacon; infer_instance

/-- Modelled from the spec: fixed-layout encoding of a beacon (§4.1, code
not in the sources) — magic, version byte, the two names length-prefixed,
then the port in two big-endian bytes. -/
def encodeBeacon (b : DiscoveryBeacon) : List Nat :=
  BEACON_MAGIC ++ [b.protocolVersion] ++
  [b.serviceName.length] ++ b.serviceName ++
  [b.displayName.length] ++ b.displayName ++
  [b.listenPort / 256, b.listenPort % 256]

/-- Decoding failure vocabulary (§4.1, §7). -/
inductive MalformedBeacon
  | truncated
  | magicMismatch
  | unsupportedVersion
  | oversized
deriving DecidableEq, Repr

/-- Reading one length-prefixed field: the length byte, then that many
bytes; fails when fewer bytes remain. -/
def readField : List Nat → Option (List Nat × List Nat)
  | [] => none
  | n :: rest => if rest.length < n then none else some (rest.take n, rest.drop n)

/-- Parse of the datagram after magic and version: the two names and the
two port bytes, demanding that the datagram end exactly there. -/
def decodeBody (rest1 : List Nat) : Except MalformedBeacon (List Nat × List Nat × Nat) :=
  match readField rest1 with
  | none => .error .truncated
  | some (svc, rest2) =>
    match readField rest2 with
    | none => .error .truncated
    | some (disp, rest3) =>
      match rest3 with
      | [hi, lo] => .ok (svc, disp, hi * 256 + lo)
      | [] => .error .truncated
      | [_] => .error .truncated
      | _ :: _ :: _ :: _ => .error .oversized

/-- Modelled from the spec: total decoder of a discovery datagram (§4.1,
code not in the sources).  Magic mismatch, unsupported version, truncation
and trailing bytes each signal `MalformedBeacon`; being a total function,
it can never crash the service. -/
def decodeBeacon (d : List Nat) : Except MalformedBeacon DiscoveryBeacon :=
  match d with
  | m0 :: m1 :: m2 :: m3 :: v :: rest1 =>
    if [m0, m1, m2, m3] ≠ BEACON_MAGIC then .error .magicMismatch
    else if v ≠ PROTO_VERSION then .error .unsupportedVersion
    else
      match decodeBody rest1 with
      | .ok (svc, disp, port) => .ok ⟨v, svc, disp, port⟩
      | .error e => .error e
  | _ => .error .truncated

/-! ## Theorems -/

/-- C6: if an outbound send session is InProgress, starting a second
outbound send fails with SessionBusy and leaves the coordinator — hence
the in-progress session — unchanged; the same holds for a second inbound
receive while one is InProgress. -/
theorem session_busy_C6 (c : Coordinator) :
    (c.outbound = some .inProgress → startSend c = (c, some .sessionBusy)) ∧
    (c.inbound = some .inProgress → startReceive c = (c, some .sessionBusy)) := by
  constructor
  · intro h
    simp [startSend, slotBusy, h]
  · intro h
    simp [startReceive, slotBusy, h]

/-- Witness for C6 at a coordinator with both sessions in progress. -/
theorem session_busy_C6_witness :
    startSend ⟨some .inProgress, some .inProgress⟩ =
      (⟨some .inProgress, some .inProgress⟩, some .sessionBusy) ∧
    startReceive ⟨some .inProgress, some .inProgress⟩ =
      (⟨some .inProgress, some .inProgress⟩, some .sessionBusy) :=
  ⟨(session_busy_C6 ⟨some .inProgress, some .inProgress⟩).1 rfl,
   (session_busy_C6 ⟨some .inProgress, some .inProgress⟩).2 rfl⟩

/-- C8 counterexample: at sent = -1, total = 1 the displayed percentage is
-100, outside [0, 100], so the claim quantified over all integer values of
sent and total fails on the code. -/
theorem sending_pct_C8_cex :
    sendingPct (-1) 1 = -100 ∧ ¬ (0 ≤ sendingPct (-1) 1 ∧ sendingPct (-1) 1 ≤ 100) := by
  decide

/-- C8 (amended to nonnegative sent and total): the percentage equals 0
when total is 0 and min(100, floor(sent*100/total)) otherwise, and for all
nonnegative integer values of sent and total (including sent greater than
total) it lies in [0, 100]; the computation never divides by zero since
the divide is guarded by total being nonzero. -/
theorem sending_pct_C8 (sent total : Int) :
    sendingPct sent 0 = 0 ∧
    (total ≠ 0 → sendingPct sent total = min 100 ((sent * 100).fdiv total)) ∧
    (0 ≤ sent → 0 ≤ total → 0 ≤ sendingPct sent total ∧ sendingPct sent total ≤ 100) := by
  refine ⟨by simp [sendingPct], fun h => by simp [sendingPct, h], fun hs ht => ?_⟩
  by_cases h0 : total = 0
  · simp [sendingPct, h0]
  · have hnn : 0 ≤ (sent * 100).fdiv total :=
      Int.fdiv_nonneg (by positivity) ht
    constructor
    · simp only [sendingPct, if_neg h0]
      exact le_min (by norm_num) hnn
    · simp only [sendingPct, if_neg h0]
      exact min_le_left _ _
  
/-- Witness for C8 at sent = 37, total = 200. -/
theorem sending_pct_C8_witness :
    sendingPct 37 200 = min 100 ((37 * 100 : Int).fdiv 200) ∧
    0 ≤ sendingPct 37 200 ∧ sendingPct 37 200 ≤ 100 :=
  ⟨(sending_pct_C8 37 200).2.1 (by decide),
   (sending_pct_C8 37 200).2.2 (by decide) (by decide)⟩

/-- C9: if the discover_receivers invocation inside refreshPeers fails,
the peer list is set to the empty list rather than keeping peers from an
earlier scan, and the shareBusy flag is reset to false on every outcome. -/
theorem refresh_peers_C9 (st : ShareUIState) :
    (∀ res, (refreshPeersFinal st res).shareBusy = false) ∧
    (refreshPeersFinal st .err).peers = [] := by
  refine ⟨fun res => ?_, rfl⟩
  cases res <;> rfl

/-- The observed progress sequence forms a non-decreasing chain from any
starting state. -/
theorem observeChunks_chain (chunks : List Nat) : ∀ p : SendProgress,
    List.Chain' (fun a b => a ≤ b) (p.bytesTransferred :: observeChunks p chunks) := by
  induction chunks with
  | nil => intro p; simp [observeChunks]
  | cons n rest ih =>
    intro p
    rw [observeChunks]
    exact List.chain'_cons.mpr ⟨Nat.le_add_right _ _, ih (stepChunk p n)⟩

/-- Every observed progress value is bounded by the starting count plus
the total size of the remaining chunks. -/
theorem observeChunks_le (chunks : List Nat) : ∀ (p : SendProgress) (x : Nat),
    x ∈ observeChunks p chunks → x ≤ p.bytesTransferred + chunks.sum := by
  induction chunks with
  | nil => intro p x hx; simp [observeChunks] at hx
  | cons n rest ih =>
    intro p x hx
    rw [observeChunks] at hx
    rcases List.mem_cons.mp hx with h | h
    · subst h
      simp only [stepChunk, List.sum_cons]
      omega
    · have := ih (stepChunk p n) x h
      simp only [stepChunk, List.sum_cons] at this ⊢
      omega

/-- After streaming every chunk, the transferred count is the starting
count plus the sum of the chunk sizes. -/
theorem runStream_bytes (chunks : List Nat) : ∀ p : SendProgress,
    (runStream p chunks).bytesTransferred = p.bytesTransferred + chunks.sum := by
  induction chunks with
  | nil => intro p; simp [runStream]
  | cons n rest ih =>
    intro p
    rw [runStream, List.foldl_cons]
    have h := ih (stepChunk p n)
    rw [runStream] at h
    rw [h]
    simp only [stepChunk, List.sum_cons]
    omega


/-- C3: for a session whose totalBytes matches the manifest's chunk sizes,
bytesTransferred as observed by the notification sink is monotonically
non-decreasing from 0, never exceeds totalBytes, and on completion (after
every chunk has streamed) equals exactly totalBytes. -/
theorem progress_invariant_C3 (chunks : List Nat) (total : Nat) (h : total = chunks.sum) :
    List.Chain' (fun a b => a ≤ b) (0 :: observeChunks ⟨0, total⟩ chunks) ∧
    (∀ x ∈ observeChunks ⟨0, total⟩ chunks, x ≤ total) ∧
    (runStream ⟨0, total⟩ chunks).bytesTransferred = total := by
  refine ⟨?_, ?_, ?_⟩
  · simpa using observeChunks_chain chunks ⟨0, total⟩
  · intro x hx
    have := observeChunks_le chunks ⟨0, total⟩ x hx
    simpa [h] using this
  · rw [runStream_bytes]
    simpa using h.symm

/-- Witness for C3 at the spec's 120-byte scenario streamed as two chunks. -/
theorem progress_invariant_C3_witness :
    List.Chain' (fun a b => a ≤ b) (0 :: observeChunks ⟨0, 120⟩ [50, 70]) ∧
    (∀ x ∈ observeChunks ⟨0, 120⟩ [50, 70], x ≤ 120) ∧
    (runStream ⟨0, 120⟩ [50, 70]).bytesTransferred = 120 :=
  progress_invariant_C3 [50, 70] 120 (by decide)

/-- C10: after a successful save the UI sets the summary list to
`sortByUpdated (updateSummaries current summary)` (handleSave); that list
holds exactly one entry with the saved note's id — which is the saved
summary itself — and is sorted by updatedAt in descending order. -/
theorem summaries_C10 (current : List NoteSummary) (summary : NoteSummary) :
    (sortByUpdated (updateSummaries current summary)).countP
      (fun n => n.id == summary.id) = 1 ∧
    summary ∈ sortByUpdated (updateSummaries current summary) ∧
    (∀ n ∈ sortByUpdated (updateSummaries current summary),
      n.id = summary.id → n = summary) ∧
    (sortByUpdated (updateSummaries current summary)).Pairwise
      (fun a b => b.updatedAt ≤ a.updatedAt) := by
  have hperm : List.Perm (sortByUpdated (updateSummaries current summary))
      (updateSummaries current summary) := List.mergeSort_perm _ _
  refine ⟨?_, ?_, ?_, ?_⟩
  · rw [hperm.countP_eq, updateSummaries, List.countP_append]
    have h0 : (current.filter (fun n => n.id != summary.id)).countP
        (fun n => n.id == summary.id) = 0 := by
      rw [List.countP_eq_zero]
      intro a ha
      have := List.of_mem_filter ha
      simpa using this
    rw [h0]
    simp [List.countP_cons]
  · rw [hperm.mem_iff, updateSummaries]
    simp
  · intro n hn hid
    rw [hperm.mem_iff, updateSummaries] at hn
    rcases List.mem_append.mp hn with h | h
    · have := List.of_mem_filter h
      simp [hid] at this
    · simpa using h
  · have hs : (List.mergeSort (updateSummaries current summary)
        (fun a b => decide (b.updatedAt ≤ a.updatedAt))).Pairwise
        (fun a b => decide (b.updatedAt ≤ a.updatedAt) = true) := by
      apply List.sorted_mergeSort
      · intro a b c hab hbc
        simp only [decide_eq_true_eq] at hab hbc ⊢
        omega
      · intro a b
        simp only [Bool.or_eq_true, decide_eq_true_eq]
        omega
    rw [sortByUpdated]
    exact hs.imp (fun h => by simpa using h)

/-- Lookup distributes over an append when the left part misses the id. -/
theorem findNote_append_of_none : ∀ (idx : List LocalNote) (id : String),
    findNote idx id = none → ∀ l2 : List LocalNote, findNote (idx ++ l2) id = findNote l2 id := by
  intro idx
  induction idx with
  | nil => intro id _ l2; rfl
  | cons n rest ih =>
    intro id h l2
    by_cases hn : n.noteId = id
    · simp [findNote, hn] at h
    · simp only [findNote, if_neg hn] at h
      simp only [List.cons_append, findNote, if_neg hn]
      exact ih id h l2

/-- Lookup is stable under appending when the left part already holds the
id. -/
theorem findNote_append_of_some : ∀ (idx : List LocalNote) (id : String) (loc : LocalNote),
    findNote idx id = some loc → ∀ l2 : List LocalNote, findNote (idx ++ l2) id = some loc := by
  intro idx
  induction idx with
  | nil => intro id loc h; simp [findNote] at h
  | cons n rest ih =>
    intro id loc h l2
    by_cases hn : n.noteId = id
    · simp only [findNote, if_pos hn] at h
      simp only [List.cons_append, findNote, if_pos hn]
      exact h
    · simp only [findNote, if_neg hn] at h
      simp only [List.cons_append, findNote, if_neg hn]
      exact ih id loc h l2

/-- After an overwrite, looking up the staged entry's id yields the staged
note, provided some note with that id existed. -/
theorem findNote_overwrite_self : ∀ (idx : List LocalNote) (e : StagedEntry) (loc : LocalNote),
    findNote idx e.noteId = some loc →
    findNote (overwriteNote idx e) e.noteId = some e.toNote := by
  intro idx
  induction idx with
  | nil => intro e loc h; simp [findNote] at h
  | cons n rest ih =>
    intro e loc h
    by_cases hn : n.noteId = e.noteId
    · simp only [overwriteNote, List.map_cons, if_pos hn, findNote]
      rw [if_pos (show e.toNote.noteId = e.noteId from rfl)]
    · simp only [findNote, if_neg hn] at h
      simp only [overwriteNote, List.map_cons, if_neg hn, findNote, if_neg hn]
      exact ih e loc h

/-- An overwrite leaves the lookup of every other id untouched. -/
theorem findNote_overwrite_ne : ∀ (idx : List LocalNote) (e : StagedEntry) (id : String),
    id ≠ e.noteId → findNote (overwriteNote idx e) id = findNote idx id := by
  intro idx
  induction idx with
  | nil => intro e id _; rfl
  | cons n rest ih =>
    intro e id hne
    by_cases hn : n.noteId = e.noteId
    · have hhead : ¬ (e.toNote.noteId = id) := fun h => hne.symm h
      have hold : ¬ (n.noteId = id) := fun h => hne.symm (hn.symm.trans h)
      simp only [overwriteNote, List.map_cons, if_pos hn, findNote, if_neg hhead, if_neg hold]
      exact ih e id hne
    · simp only [overwriteNote, List.map_cons, if_neg hn, findNote]
      by_cases hni : n.noteId = id
      · rw [if_pos hni, if_pos hni]
      · rw [if_neg hni, if_neg hni]
        exact ih e id hne

/-- C1: the Merge Engine's reconciliation of one staged entry against the
local index — a missing noteId is inserted as a new note; a strictly newer
staged updatedAt overwrites the local title/body/timestamp (lookup of the
id afterwards yields the staged note, all other ids unchanged); and a
staged updatedAt older than or equal to the local one is discarded with
the local index kept unchanged. -/
theorem merge_lww_C1 (idx : List LocalNote) (e : StagedEntry) :
    (findNote idx e.noteId = none →
      mergeEntry idx e = (idx ++ [e.toNote], .added) ∧
      findNote (mergeEntry idx e).1 e.noteId = some e.toNote) ∧
    (∀ loc, findNote idx e.noteId = some loc → loc.updatedAt < e.updatedAt →
      mergeEntry idx e = (overwriteNote idx e, .updated) ∧
      findNote (mergeEntry idx e).1 e.noteId = some e.toNote ∧
      ∀ id, id ≠ e.noteId → findNote (mergeEntry idx e).1 id = findNote idx id) ∧
    (∀ loc, findNote idx e.noteId = some loc → e.updatedAt ≤ loc.updatedAt →
      mergeEntry idx e = (idx, .skipped)) := by
  refine ⟨fun hf => ?_, fun loc hf hlt => ?_, fun loc hf hle => ?_⟩
  · refine ⟨by simp [mergeEntry, hf], ?_⟩
    simp only [mergeEntry, hf]
    rw [findNote_append_of_none idx e.noteId hf]
    simp [findNote, StagedEntry.toNote]
  · have heq : mergeEntry idx e = (overwriteNote idx e, .updated) := by
      simp [mergeEntry, hf, if_pos hlt]
    refine ⟨heq, ?_, ?_⟩
    · rw [heq]
      exact findNote_overwrite_self idx e loc hf
    · intro id hid
      rw [heq]
      exact findNote_overwrite_ne idx e id hid
  · simp only [mergeEntry, hf]
    rw [if_neg (by omega)]

/-- Witness for C1: one-note index exercised on an unknown id (insert), a
newer staged copy (overwrite), and an equal-timestamp staged copy (skip). -/
theorem merge_lww_C1_witness :
    mergeEntry [⟨"a", "t", "b", 5⟩] ⟨"n", "nt", "nb", 7⟩ =
      ([⟨"a", "t", "b", 5⟩, ⟨"n", "nt", "nb", 7⟩], .added) ∧
    mergeEntry [⟨"a", "t", "b", 5⟩] ⟨"a", "t2", "b2", 9⟩ =
      (overwriteNote [⟨"a", "t", "b", 5⟩] ⟨"a", "t2", "b2", 9⟩, .updated) ∧
    findNote (mergeEntry [⟨"a", "t", "b", 5⟩] ⟨"a", "t2", "b2", 9⟩).1 "a" =
      some ⟨"a", "t2", "b2", 9⟩ ∧
    mergeEntry [⟨"a", "t", "b", 5⟩] ⟨"a", "t3", "b3", 5⟩ = ([⟨"a", "t", "b", 5⟩], .skipped) := by
  refine ⟨?_, ?_, ?_, ?_⟩
  · exact ((merge_lww_C1 [⟨"a", "t", "b", 5⟩] ⟨"n", "nt", "nb", 7⟩).1 (by decide)).1
  · exact ((merge_lww_C1 [⟨"a", "t", "b", 5⟩] ⟨"a", "t2", "b2", 9⟩).2.1
      ⟨"a", "t", "b", 5⟩ (by decide) (by decide)).1
  · exact ((merge_lww_C1 [⟨"a", "t", "b", 5⟩] ⟨"a", "t2", "b2", 9⟩).2.1
      ⟨"a", "t", "b", 5⟩ (by decide) (by decide)).2.1
  · exact (merge_lww_C1 [⟨"a", "t", "b", 5⟩] ⟨"a", "t3", "b3", 5⟩).2.2
      ⟨"a", "t", "b", 5⟩ (by decide) (by decide)

/-- Reconciling one staged entry can only raise the timestamp found at any
id already present in the index. -/
theorem mergeEntry_keeps (idx : List LocalNote) (e : StagedEntry) (id : String) (loc : LocalNote)
    (h : findNote idx id = some loc) :
    ∃ loc', findNote (mergeEntry idx e).1 id = some loc' ∧ loc.updatedAt ≤ loc'.updatedAt := by
  cases hf : findNote idx e.noteId with
  | none =>
    refine ⟨loc, ?_, le_refl _⟩
    simp only [mergeEntry, hf]
    exact findNote_append_of_some idx id loc h _
  | some loc0 =>
    by_cases hlt : loc0.updatedAt < e.updatedAt
    · by_cases hid : id = e.noteId
      · subst hid
        have hloc : loc = loc0 := by
          rw [h] at hf
          exact Option.some.inj hf
        subst hloc
        refine ⟨e.toNote, ?_, le_of_lt hlt⟩
        simp only [mergeEntry, hf, if_pos hlt]
        exact findNote_overwrite_self idx e loc h
      · refine ⟨loc, ?_, le_refl _⟩
        simp only [mergeEntry, hf, if_pos hlt]
        rw [findNote_overwrite_ne idx e id hid]
        exact h
    · refine ⟨loc, ?_, le_refl _⟩
      simp only [mergeEntry, hf, if_neg hlt]
      exact h

/-- After reconciling one staged entry, the index holds its id with a
timestamp at least the staged one. -/
theorem mergeEntry_covers (idx : List LocalNote) (e : StagedEntry) :
    ∃ loc, findNote (mergeEntry idx e).1 e.noteId = some loc ∧ e.updatedAt ≤ loc.updatedAt := by
  cases hf : findNote idx e.noteId with
  | none =>
    refine ⟨e.toNote, ?_, le_refl _⟩
    simp only [mergeEntry, hf]
    rw [findNote_append_of_none idx e.noteId hf]
    simp [findNote, StagedEntry.toNote]
  | some loc0 =>
    by_cases hlt : loc0.updatedAt < e.updatedAt
    · refine ⟨e.toNote, ?_, le_refl _⟩
      simp only [mergeEntry, hf, if_pos hlt]
      exact findNote_overwrite_self idx e loc0 hf
    · refine ⟨loc0, ?_, by omega⟩
      simp only [mergeEntry, hf, if_neg hlt]

/-- Batch merging can only raise the timestamp found at any id already
present in the index. -/
theorem mergeApply_keeps (es : List StagedEntry) : ∀ (idx : List LocalNote) (id : String) (loc : LocalNote),
    findNote idx id = some loc →
    ∃ loc', findNote (mergeApply idx es).1 id = some loc' ∧ loc.updatedAt ≤ loc'.updatedAt := by
  induction es with
  | nil => intro idx id loc h; exact ⟨loc, h, le_refl _⟩
  | cons e rest ih =>
    intro idx id loc h
    obtain ⟨l1, h1, hle1⟩ := mergeEntry_keeps idx e id loc h
    obtain ⟨l2, h2, hle2⟩ := ih (mergeEntry idx e).1 id l1 h1
    refine ⟨l2, ?_, le_trans hle1 hle2⟩
    simp only [mergeApply]
    exact h2

/-- After a batch merge, every staged entry's id is present with a
timestamp at least the staged one. -/
theorem mergeApply_covers (es : List StagedEntry) : ∀ (idx : List LocalNote) (e : StagedEntry),
    e ∈ es → ∃ loc, findNote (mergeApply idx es).1 e.noteId = some loc ∧
      e.updatedAt ≤ loc.updatedAt := by
  induction es with
  | nil => intro idx e he; simp at he
  | cons a rest ih =>
    intro idx e he
    rcases List.mem_cons.mp he with h | h
    · subst h
      obtain ⟨l1, h1, hle1⟩ := mergeEntry_covers idx e
      obtain ⟨l2, h2, hle2⟩ := mergeApply_keeps rest (mergeEntry idx e).1 e.noteId l1 h1
      refine ⟨l2, ?_, le_trans hle1 hle2⟩
      simp only [mergeApply]
      exact h2
    · obtain ⟨l, hl, hle⟩ := ih (mergeEntry idx a).1 e h
      refine ⟨l, ?_, hle⟩
      simp only [mergeApply]
      exact hl

/-- When the index already dominates every staged entry's timestamp, the
batch merge leaves the index unchanged and skips every entry. -/
theorem mergeApply_skips (es : List StagedEntry) : ∀ idx : List LocalNote,
    (∀ e ∈ es, ∃ loc, findNote idx e.noteId = some loc ∧ e.updatedAt ≤ loc.updatedAt) →
    mergeApply idx es = (idx, es.map fun _ => MergeAction.skipped) := by
  induction es with
  | nil => intro idx _; rfl
  | cons a rest ih =>
    intro idx hall
    obtain ⟨loc, hf, hle⟩ := hall a (List.mem_cons_self a rest)
    have hstep : mergeEntry idx a = (idx, .skipped) := by
      simp only [mergeEntry, hf]
      rw [if_neg (by omega)]
    have hrest := ih idx (fun e he => hall e (List.mem_cons_of_mem a he))
    simp only [mergeApply, hstep, hrest, List.map_cons]

/-- C7: applying the Merge Engine a second time with the same staged
manifest against the index the first application produced leaves that
index unchanged and counts every entry as skipped (ties favor the local
copy). -/
theorem merge_idempotent_C7 (idx : List LocalNote) (es : List StagedEntry) :
    mergeApply (mergeApply idx es).1 es =
      ((mergeApply idx es).1, es.map fun _ => MergeAction.skipped) := by
  apply mergeApply_skips
  intro e he
  exact mergeApply_covers es idx e he

/-- A Decision frame in one step's output forces that step's event to be
the matching external decision. -/
theorem recvStep_decision (s : RecvState) (ev : RecvEvent) (id : String) (acc : Bool)
    (h : RecvOutput.sendDecision id acc ∈ (recvStep s ev).2) :
    ev = .externalDecide id acc := by
  cases s <;> cases ev <;> simp only [recvStep] at h <;> try simp at h
  case offerReceived.externalDecide o i a =>
    by_cases hid : i = o.offerId
    · rw [if_pos hid] at h
      by_cases ha : a = true
      · subst ha
        rw [if_pos rfl] at h
        simp at h
        simp [h.1, h.2]
      · have ha' : a = false := by
          cases a
          · rfl
          · exact absurd rfl ha
        subst ha'
        simp at h
        simp [h.1, h.2]
    · rw [if_neg hid] at h
      simp at h

/-- A step landing in the Streaming state either started there on the same
offer or was exactly the accepting external decision for that offer. -/
theorem recvStep_streaming (s : RecvState) (ev : RecvEvent) (o : TransferOffer) (b : Nat)
    (h : (recvStep s ev).1 = .streaming o b) :
    (∃ b', s = .streaming o b') ∨ ev = .externalDecide o.offerId true := by
  cases s <;> cases ev <;> simp only [recvStep] at h <;> try simp at h
  case offerReceived.externalDecide o0 i a =>
    by_cases hid : i = o0.offerId
    · rw [if_pos hid] at h
      by_cases ha : a = true
      · subst ha
        rw [if_pos rfl] at h
        simp at h
        right
        rw [hid, h.1]
      · have ha' : a = false := by
          cases a
          · rfl
          · exact absurd rfl ha
        subst ha'
        simp at h
    · rw [if_neg hid] at h
      simp at h
  case streaming.frameChunk o0 b0 n =>
    left
    exact ⟨b0, by rw [h.1]⟩
  case streaming.externalDecide o0 b0 i a =>
    left
    exact ⟨b0, by rw [h.1]⟩

/-- Any Decision frame in a run's output is caused by a matching external
decision event in the input sequence. -/
theorem recvRun_decision (evs : List RecvEvent) : ∀ (s : RecvState) (id : String) (acc : Bool),
    RecvOutput.sendDecision id acc ∈ (recvRun s evs).2 →
    RecvEvent.externalDecide id acc ∈ evs := by
  induction evs with
  | nil => intro s id acc h; simp [recvRun] at h
  | cons ev rest ih =>
    intro s id acc h
    simp only [recvRun] at h
    rcases List.mem_append.mp h with h | h
    · rw [recvStep_decision s ev id acc h]
      exact List.mem_cons_self _ _
    · exact List.mem_cons_of_mem _ (ih (recvStep s ev).1 id acc h)

/-- A run that ends in the Streaming state either started streaming that
offer or contains the accepting external decision for it. -/
theorem recvRun_streaming (evs : List RecvEvent) : ∀ (s : RecvState) (o : TransferOffer) (b : Nat),
    (recvRun s evs).1 = .streaming o b →
    (∃ b', s = .streaming o b') ∨ RecvEvent.externalDecide o.offerId true ∈ evs := by
  induction evs with
  | nil =>
    intro s o b h
    simp only [recvRun] at h
    exact .inl ⟨b, h⟩
  | cons ev rest ih =>
    intro s o b h
    simp only [recvRun] at h
    rcases ih (recvStep s ev).1 o b h with ⟨b', hb⟩ | hmem
    · rcases recvStep_streaming s ev o b' hb with hs | hev
      · exact .inl hs
      · subst hev
        exact .inr (List.mem_cons_self _ _)
    · exact .inr (List.mem_cons_of_mem _ hmem)

/-- C2: the receiver surfaces an inbound offer without auto-accepting (the
Offer step emits no Decision frame), any Decision frame in a session run
is produced only by the external caller's decision with that offerId and
flag, payload streaming is reached only after an accepting decision for
the streamed offer, and in the UI Accept invokes the decision with
accept=true and the offer's id while Reject invokes it with accept=false. -/
theorem consent_gate_C2 :
    (∀ o : TransferOffer, recvStep .idle (.frameOffer o) =
      (.offerReceived o, [.surfaceOffer o.offerId o.senderName o.kind o.totalBytes])) ∧
    (∀ (o : TransferOffer) (id : String) (acc : Bool),
      RecvOutput.sendDecision id acc ∉ (recvStep .idle (.frameOffer o)).2) ∧
    (∀ (evs : List RecvEvent) (s : RecvState) (id : String) (acc : Bool),
      RecvOutput.sendDecision id acc ∈ (recvRun s evs).2 →
      RecvEvent.externalDecide id acc ∈ evs) ∧
    (∀ (evs : List RecvEvent) (o : TransferOffer) (b : Nat),
      (recvRun .idle evs).1 = .streaming o b →
      RecvEvent.externalDecide o.offerId true ∈ evs) ∧
    (∀ id, acceptIncoming id = ⟨"accept_incoming_transfer", id, true⟩) ∧
    (∀ id, rejectIncoming id = ⟨"accept_incoming_transfer", id, false⟩) := by
  refine ⟨fun o => rfl, fun o id acc h => ?_,
    fun evs s id acc h => recvRun_decision evs s id acc h, ?_, fun id => rfl, fun id => rfl⟩
  · simp [recvStep] at h
  · intro evs o b h
    rcases recvRun_streaming evs .idle o b h with ⟨b', hb⟩ | hmem
    · cases hb
    · exact hmem

/-- Witness for C2: a reject trace explains its Decision frame, and an
accept trace that reaches Streaming contains the accepting decision. -/
theorem consent_gate_C2_witness :
    RecvEvent.externalDecide "x" false ∈
      ([.frameOffer ⟨"x", "alice", "all", 120⟩, .externalDecide "x" false] : List RecvEvent) ∧
    RecvEvent.externalDecide "x" true ∈
      ([.frameOffer ⟨"x", "alice", "all", 120⟩, .externalDecide "x" true] : List RecvEvent) :=
  ⟨consent_gate_C2.2.2.1 _ .idle "x" false (by decide),
   consent_gate_C2.2.2.2.1 _ ⟨"x", "alice", "all", 120⟩ 0 (by decide)⟩

/-- Reading a length-prefixed field from a datagram that carries exactly
the announced content followed by a tail yields that content and tail. -/
theorem readField_exact (s t : List Nat) : readField (s.length :: (s ++ t)) = some (s, t) := by
  have h : ¬ (s ++ t).length < s.length := by
    simp [List.length_append]
  simp [readField, h, List.take_left, List.drop_left]

/-- Truncating a well-formed length-prefixed region either starves the
field read or leaves a strictly shorter tail behind it. -/
theorem readField_take (s t : List Nat) (j : Nat) (hj : j < (s.length :: (s ++ t)).length) :
    readField ((s.length :: (s ++ t)).take j) = none ∨
    (∃ j2, j2 < t.length ∧ readField ((s.length :: (s ++ t)).take j) = some (s, t.take j2)) := by
  match j with
  | 0 => exact .inl rfl
  | j + 1 =>
    rw [List.take_succ_cons]
    rcases Nat.lt_or_ge j s.length with hlt | hge
    · left
      have hjlen : j ≤ (s ++ t).length := by
        simp [List.length_append]
        omega
      have hlen : ((s ++ t).take j).length = j := by
        rw [List.length_take]
        omega
      simp [readField, hlen, hlt]
    · right
      have htake : (s ++ t).take j = s ++ t.take (j - s.length) := by
        rw [List.take_append_eq_append_take, List.take_of_length_le hge]
      rw [htake, readField_exact]
      refine ⟨j - s.length, ?_, rfl⟩
      simp only [List.length_cons, List.length_append] at hj
      omega

/-- Full parse of a well-formed body: both names and exactly two trailing
port bytes. -/
theorem decodeBody_ok (s1 s2 : List Nat) (hi lo : Nat) :
    decodeBody (s1.length :: (s1 ++ (s2.length :: (s2 ++ [hi, lo])))) =
      .ok (s1, s2, hi * 256 + lo) := by
  have h1 := readField_exact s1 (s2.length :: (s2 ++ [hi, lo]))
  have h2 := readField_exact s2 [hi, lo]
  simp [decodeBody, h1, h2]

/-- A body followed by any extra bytes after the two port bytes is
rejected as oversized. -/
theorem decodeBody_over (s1 s2 : List Nat) (hi lo x : Nat) (xs : List Nat) :
    decodeBody (s1.length :: (s1 ++ (s2.length :: (s2 ++ (hi :: lo :: x :: xs))))) =
      .error .oversized := by
  have h1 := readField_exact s1 (s2.length :: (s2 ++ (hi :: lo :: x :: xs)))
  have h2 := readField_exact s2 (hi :: lo :: x :: xs)
  simp [decodeBody, h1, h2]

/-- Every strict prefix of a well-formed body fails to parse. -/
theorem decodeBody_take_err (s1 s2 : List Nat) (hi lo : Nat) (j : Nat)
    (hj : j < (s1.length :: (s1 ++ (s2.length :: (s2 ++ [hi, lo])))).length) :
    ∃ e, decodeBody ((s1.length :: (s1 ++ (s2.length :: (s2 ++ [hi, lo])))).take j) =
      .error e := by
  rcases readField_take s1 (s2.length :: (s2 ++ [hi, lo])) j hj with hnone | ⟨j2, hj2, hsome⟩
  · exact ⟨.truncated, by simp [decodeBody, hnone]⟩
  · rcases readField_take s2 [hi, lo] j2 hj2 with hnone2 | ⟨j3, hj3, hsome2⟩
    · exact ⟨.truncated, by simp [decodeBody, hsome, hnone2]⟩
    · have h3 : j3 = 0 ∨ j3 = 1 := by
        simp at hj3
        omega
      rcases h3 with h3 | h3 <;> subst h3
      · exact ⟨.truncated, by simp [decodeBody, hsome, hsome2]⟩
      · exact ⟨.truncated, by simp [decodeBody, hsome, hsome2]⟩

/-- The encoded datagram, flattened to its byte layout. -/
theorem encodeBeacon_shape (b : DiscoveryBeacon) :
    encodeBeacon b = 81 :: 77 :: 82 :: 75 :: b.protocolVersion ::
      (b.serviceName.length :: (b.serviceName ++ (b.displayName.length ::
        (b.displayName ++ [b.listenPort / 256, b.listenPort % 256])))) := by
  simp [encodeBeacon, BEACON_MAGIC]

/-- A datagram whose first four bytes are not the magic marker never
decodes: it is rejected as truncated or as a magic mismatch. -/
theorem decode_magic_err (d : List Nat) (h : d.take 4 ≠ BEACON_MAGIC) :
    ∃ e, decodeBeacon d = .error e := by
  match d with
  | [] => exact ⟨.truncated, rfl⟩
  | [_] => exact ⟨.truncated, rfl⟩
  | [_, _] => exact ⟨.truncated, rfl⟩
  | [_, _, _] => exact ⟨.truncated, rfl⟩
  | [_, _, _, _] => exact ⟨.truncated, rfl⟩
  | m0 :: m1 :: m2 :: m3 :: v :: rest =>
    have h4 : [m0, m1, m2, m3] ≠ BEACON_MAGIC := by
      simpa using h
    exact ⟨.magicMismatch, by simp [decodeBeacon, h4]⟩

/-- A correct magic marker followed by an unsupported version byte is
rejected as an unsupported version. -/
theorem decode_version_err (v : Nat) (rest : List Nat) (hv : v ≠ PROTO_VERSION) :
    decodeBeacon (BEACON_MAGIC ++ (v :: rest)) = .error .unsupportedVersion := by
  simp [BEACON_MAGIC, decodeBeacon, hv]

/-- Every strict prefix of a valid encoded beacon fails to decode. -/
theorem decode_truncated_err (b : DiscoveryBeacon) (k : Nat) (hvb : validBeacon b)
    (hk : k < (encodeBeacon b).length) :
    ∃ e, decodeBeacon ((encodeBeacon b).take k) = .error e := by
  obtain ⟨hv, -, -, -, -, -⟩ := hvb
  rw [encodeBeacon_shape] at hk ⊢
  rcases k with _ | _ | _ | _ | _ | j
  · exact ⟨.truncated, rfl⟩
  · exact ⟨.truncated, rfl⟩
  · exact ⟨.truncated, rfl⟩
  · exact ⟨.truncated, rfl⟩
  · exact ⟨.truncated, rfl⟩
  · simp only [List.take_succ_cons]
    have hj : j < (b.serviceName.length :: (b.serviceName ++ (b.displayName.length ::
        (b.displayName ++ [b.listenPort / 256, b.listenPort % 256])))).length := by
      simp only [List.length_cons, List.length_append] at hk ⊢
      omega
    obtain ⟨e, he⟩ := decodeBody_take_err b.serviceName b.displayName _ _ j hj
    refine ⟨e, ?_⟩
    simp [decodeBeacon, BEACON_MAGIC, hv, he]

/-- A valid encoded beacon followed by at least one trailing byte is
rejected as oversized. -/
theorem decode_oversized_err (b : DiscoveryBeacon) (x : Nat) (xs : List Nat)
    (hvb : validBeacon b) :
    decodeBeacon (encodeBeacon b ++ (x :: xs)) = .error .oversized := by
  obtain ⟨hv, -, -, -, -, -⟩ := hvb
  have hsh : encodeBeacon b ++ (x :: xs) = 81 :: 77 :: 82 :: 75 :: b.protocolVersion ::
      (b.serviceName.length :: (b.serviceName ++ (b.displayName.length ::
        (b.displayName ++ (b.listenPort / 256 :: b.listenPort % 256 :: x :: xs))))) := by
    rw [encodeBeacon_shape]
    simp
  rw [hsh]
  simp [decodeBeacon, BEACON_MAGIC, hv, decodeBody_over]

/-- C4: for every valid beacon, decoding the datagram produced by encoding
it yields the beacon back; encoding is a total function, so it never fails
on well-formed input. -/
theorem beacon_roundtrip_C4 (b : DiscoveryBeacon) (h : validBeacon b) :
    decodeBeacon (encodeBeacon b) = .ok b := by
  obtain ⟨hv, -, -, -, -, -⟩ := h
  have hport : b.listenPort / 256 * 256 + b.listenPort % 256 = b.listenPort := by omega
  simp only [encodeBeacon, BEACON_MAGIC, List.cons_append, List.nil_append, List.append_assoc]
  simp only [decodeBeacon, decodeBody_ok, hv]
  simp only [BEACON_MAGIC, if_pos rfl]
  rw [← hv]
  simp [hport]

/-- Witness for C4 at a concrete valid beacon. -/
theorem beacon_roundtrip_C4_witness :
    validBeacon ⟨1, [81], [65, 66], 51516⟩ ∧
    decodeBeacon (encodeBeacon ⟨1, [81], [65, 66], 51516⟩) = .ok ⟨1, [81], [65, 66], 51516⟩ :=
  ⟨by decide, beacon_roundtrip_C4 ⟨1, [81], [65, 66], 51516⟩ (by decide)⟩

/-- C5: decoding a malformed discovery datagram always signals
MalformedBeacon as an error result — when the magic marker is absent, when
the version byte is unsupported, when a valid datagram is truncated to any
strict prefix, and when trailing bytes follow a valid datagram — and the
decoder is a total function, so it never crashes the service; dropping the
datagram is then the caller's only action. -/
theorem malformed_beacon_C5 :
    (∀ d : List Nat, d.take 4 ≠ BEACON_MAGIC → ∃ e, decodeBeacon d = .error e) ∧
    (∀ (v : Nat) (rest : List Nat), v ≠ PROTO_VERSION →
      decodeBeacon (BEACON_MAGIC ++ (v :: rest)) = .error .unsupportedVersion) ∧
    (∀ (b : DiscoveryBeacon) (k : Nat), validBeacon b → k < (encodeBeacon b).length →
      ∃ e, decodeBeacon ((encodeBeacon b).take k) = .error e) ∧
    (∀ (b : DiscoveryBeacon) (x : Nat) (xs : List Nat), validBeacon b →
      decodeBeacon (encodeBeacon b ++ (x :: xs)) = .error .oversized) :=
  ⟨decode_magic_err, decode_version_err, decode_truncated_err, decode_oversized_err⟩

/-- Witness for C5 on concrete malformed datagrams of all four kinds. -/
theorem malformed_beacon_C5_witness :
    (∃ e, decodeBeacon [0, 0, 0, 0, 0] = .error e) ∧
    decodeBeacon (BEACON_MAGIC ++ (2 :: [0, 0, 0, 0])) = .error .unsupportedVersion ∧
    (∃ e, decodeBeacon ((encodeBeacon ⟨1, [81], [65, 66], 51516⟩).take 6) = .error e) ∧
    decodeBeacon (encodeBeacon ⟨1, [81], [65, 66], 51516⟩ ++ (7 :: [])) = .error .oversized :=
  ⟨malformed_beacon_C5.1 [0, 0, 0, 0, 0] (by decide),
   malformed_beacon_C5.2.1 2 [0, 0, 0, 0] (by decide),
   malformed_beacon_C5.2.2.1 ⟨1, [81], [65, 66], 51516⟩ 6 (by decide) (by decide),
   malformed_beacon_C5.2.2.2 ⟨1, [81], [65, 66], 51516⟩ 7 [] (by decide)⟩
